import Mathlib

/-!
Verification development for the competitor price-monitoring system.

The Python sources are shallowly embedded: Python `float` and `Decimal`
*values* are modelled as exact rationals (`ℚ`) — every IEEE-754 double is a
rational number — and the arithmetic of the pricing rule engine is modelled
as exact rational arithmetic.  The one place where the conversion of an
exact decimal value to a binary double is itself under scrutiny
(`round_price`'s final `float(...)` call, `src/pricing/rules.py` line 46),
the binary64 round-to-nearest-even conversion is modelled explicitly
(`toFloat`, used by `round_price_float`).

Python strings are modelled as `List Char` (or Lean `String` whose `.data`
is used for ordering); Python `dict`s as insertion-ordered association
lists; raised exceptions as `Except` values carrying the exception class
and message.
-/

namespace PriceMonitor

/-! ## Exception hierarchy (src/scraper/parsers/base.py, lines 44-49)

`class ScraperError(RuntimeError)` and
`class PriceNotFoundError(ScraperError)`; `ValueError` is a Python builtin.
Only the classes relevant to the claims are modelled, rooted at Python's
`Exception`. -/

inductive PyExcClass where
  | PyException
  | RuntimeError
  | ValueError
  | ScraperError
  | PriceNotFoundError
deriving DecidableEq, Repr

open PyExcClass in
/-- Direct base class of each exception class, as declared in the source
(`class ScraperError(RuntimeError)`, `class PriceNotFoundError(ScraperError)`). -/
def pyParent : PyExcClass → Option PyExcClass
  | PyException => none
  | RuntimeError => some PyException
  | ValueError => some PyException
  | ScraperError => some RuntimeError
  | PriceNotFoundError => some ScraperError

/-- The class together with its chain of base classes (method resolution
order), computed from `pyParent` with enough fuel for the finite hierarchy. -/
def pyAncestorsAux : Nat → PyExcClass → List PyExcClass
  | 0, c => [c]
  | fuel + 1, c =>
    match pyParent c with
    | none => [c]
    | some p => c :: pyAncestorsAux fuel p

def pyAncestors (c : PyExcClass) : List PyExcClass :=
  pyAncestorsAux 8 c

/-- Python `issubclass(sub, sup)`: a raised exception of class `sub` is intercepted
by an `except sup:` handler precisely when this holds. -/
def isSubclass (sub sup : PyExcClass) : Bool :=
  pyAncestors sub |>.contains sup

/-- A raised Python exception: its class and message. -/
structure PyExc where
  cls : PyExcClass
  msg : String
deriving DecidableEq, Repr

/-- A `try/except c1: ... except c2: ...` chain: the first listed handler
whose class the raised exception is a subclass of receives it. -/
def exceptChain (handlers : List PyExcClass) (raised : PyExcClass) : Option PyExcClass :=
  handlers.find? (fun h => isSubclass raised h)

/-! ## Character and string utilities -/

/-- Python's regex `\s` under full Unicode semantics (the character set of
`str.isspace`).  The source's `_WS_CLASS` (base.py line 25) lists
U+00A0, U+2007, U+202F, U+2009 explicitly and then adds `\s`; all four are
Unicode whitespace, so the class equals this set. -/
def isPySpace (c : Char) : Bool :=
  let n := c.toNat
  decide ((9 ≤ n ∧ n ≤ 13) ∨ n = 32 ∨ (28 ≤ n ∧ n ≤ 31) ∨ n = 0x85 ∨ n = 0xa0 ∨
    n = 0x1680 ∨ (0x2000 ≤ n ∧ n ≤ 0x200a) ∨ n = 0x2028 ∨ n = 0x2029 ∨
    n = 0x202f ∨ n = 0x205f ∨ n = 0x3000)

/-- Lexicographic comparison of code-point sequences: Python's `<` on `str`. -/
def charListLt : List Char → List Char → Bool
  | [], [] => false
  | [], _ :: _ => true
  | _ :: _, [] => false
  | a :: as, b :: bs => if a < b then true else if b < a then false else charListLt as bs

/-- Python's `needle in hay` substring test. -/
def containsSub (needle : List Char) : List Char → Bool
  | [] => needle.isEmpty
  | c :: rest => needle.isPrefixOf (c :: rest) || containsSub needle rest

/-- Python's `str.lower`, restricted to the ASCII and Cyrillic alphabets that
occur in the adapters' context hints (other characters are unchanged, as in
Python for the inputs considered). -/
def pyLowerChar (c : Char) : Char :=
  let n := c.toNat
  if 65 ≤ n ∧ n ≤ 90 then Char.ofNat (n + 32)
  else if 0x410 ≤ n ∧ n ≤ 0x42F then Char.ofNat (n + 32)
  else if n = 0x401 then Char.ofNat 0x451
  else c

def pyLower (cs : List Char) : List Char :=
  cs.map pyLowerChar

/-! ## Python `Decimal` values

A `Decimal` built from a digit string is a coefficient with a decimal
exponent; `str` regenerates the positional form with `exp` fractional
digits.  Two `Decimal`s are `==` in Python when their numeric values agree. -/

structure Dec where
  coeff : ℕ
  exp : ℕ
deriving DecidableEq, Repr

/-- Numeric value of a `Decimal`. -/
def Dec.val (d : Dec) : ℚ :=
  (d.coeff : ℚ) / 10 ^ d.exp

/-- Digit list → natural number, as positional base-10 reading. -/
def digitsToNat (ds : List Char) : ℕ :=
  ds.foldl (fun a c => 10 * a + (c.toNat - 48)) 0

/-- Decimal digit representation of a natural number (no leading zeros;
`"0"` for zero). -/
def natDigits (n : ℕ) : List Char :=
  if n = 0 then ['0']
  else ((Nat.digits 10 n).reverse.map fun d => Char.ofNat (48 + d))

/-- Model of `str()` of a `Decimal` with `exp` fractional digits (Python pads the
coefficient with leading zeros to at least `exp + 1` digits, then inserts
the decimal point; no point when `exp = 0`). -/
def decStr (d : Dec) : List Char :=
  let s := natDigits d.coeff
  if d.exp = 0 then s
  else
    let s2 := List.replicate (d.exp + 1 - s.length) '0' ++ s
    s2.take (s2.length - d.exp) ++ '.' :: s2.drop (s2.length - d.exp)

/-! ## Shared decimal normalizer `to_decimal` (src/scraper/parsers/base.py, lines 28-41) -/

/-- The cleaning pipeline of `to_decimal`:
`re.sub(rf"[^\{WS\}0-9.,]", "", text)` keeps whitespace, ASCII digits, dot,
comma; `re.sub(rf"[\{WS\}]+", "", ...)` then deletes all whitespace;
`cleaned.replace(",", ".")` maps commas to dots. -/
def to_decimal_cleaned (cs : List Char) : List Char :=
  let kept := cs.filter (fun c => isPySpace c || c.isDigit || c == '.' || c == ',')
  let nospace := kept.filter (fun c => !isPySpace c)
  nospace.map (fun c => if c == ',' then '.' else c)

/-- Model of `re.search(r"^\d+(?:\.\d\{1,2\})?$", cleaned)`: the whole string is a
digit run optionally followed by a dot and one or two digits.  Returns the
(integer digits, fraction digits) of the match. -/
def matchFullToken (cs : List Char) : Option (List Char × List Char) :=
  let ds := cs.takeWhile Char.isDigit
  let rest := cs.dropWhile Char.isDigit
  if ds.isEmpty then none
  else
    match rest with
    | [] => some (ds, [])
    | '.' :: fs =>
      if !fs.isEmpty && decide (fs.length ≤ 2) && fs.all Char.isDigit then some (ds, fs)
      else none
    | _ => none

/-- Model of `re.search(r"\d+(?:\.\d\{1,2\})?", cleaned)`: leftmost match — the first
digit starts it, `\d+` greedily takes the digit run, and the optional group
takes a dot plus up to two digits when at least one digit follows the dot. -/
def scanToken : List Char → Option (List Char × List Char)
  | [] => none
  | c :: rest =>
    if c.isDigit then
      let ds := (c :: rest).takeWhile Char.isDigit
      match (c :: rest).dropWhile Char.isDigit with
      | '.' :: r2 =>
        let fs := (r2.takeWhile Char.isDigit).take 2
        if fs.isEmpty then some (ds, []) else some (ds, fs)
      | _ => some (ds, [])
    else scanToken rest

/-- Model of `to_decimal` (base.py lines 28-41): clean, then anchored match, then
unanchored search; `Decimal(match.group(0))` on success, `ValueError`
(modelled `none`) when no token is found.  (The `text is None` guard does
not arise for string inputs.) -/
def to_decimal (cs : List Char) : Option Dec :=
  let cleaned := to_decimal_cleaned cs
  let tok :=
    match matchFullToken cleaned with
    | some t => some t
    | none => scanToken cleaned
  tok.map fun t => ⟨digitsToNat (t.1 ++ t.2), t.2.length⟩

/-! ## Petrovich `_parse_decimal_value` (src/scraper/parsers/petrovich.py, lines 83-108) -/

/-- Cleaning pipeline of `_parse_decimal_value`: the three thin/no-break
spaces become ASCII spaces, ASCII spaces are removed, every character
outside `[0-9,.]` is removed, and commas become dots. -/
def parse_decimal_cleaned (cs : List Char) : List Char :=
  let step1 := cs.map (fun c =>
    if c.toNat = 0xa0 ∨ c.toNat = 0x2009 ∨ c.toNat = 0x202f then ' ' else c)
  let step2 := step1.filter (fun c => c != ' ')
  let step3 := step2.filter (fun c => c.isDigit || c == ',' || c == '.')
  step3.map (fun c => if c == ',' then '.' else c)

/-- Python `"".split(".")`-style split on the dot character. -/
def splitOnDot : List Char → List (List Char)
  | [] => [[]]
  | c :: rest =>
    if c = '.' then [] :: splitOnDot rest
    else
      match splitOnDot rest with
      | g :: gs => (c :: g) :: gs
      | [] => [[c]]

/-- Lines 96-100 of petrovich.py: when more than one dot remains, all parts
but the last are joined into the integer part and the last part is kept as
the fraction (dropped entirely when empty). -/
def joinThousandsDots (normalized : List Char) : List Char :=
  if 1 < normalized.count '.' then
    let parts := splitOnDot normalized
    let integer_part := parts.dropLast.flatten
    let fractional := parts.getLastD []
    if fractional.isEmpty then integer_part else integer_part ++ '.' :: fractional
  else normalized

/-- Model of `Decimal(s)` for the post-cleaning alphabet (digits and dots): valid when
there is at most one dot and at least one digit; the coefficient reads all
digits positionally, the exponent is the fraction length.  Invalid strings
raise `InvalidOperation`, modelled `none`. -/
def pyDecimalOfString (cs : List Char) : Option Dec :=
  if cs.count '.' ≤ 1 ∧ cs.all (fun c => c.isDigit || c == '.') ∧ cs.any Char.isDigit then
    let intp := cs.takeWhile (fun c => c != '.')
    let frac := (cs.dropWhile (fun c => c != '.')).drop 1
    some ⟨digitsToNat (intp ++ frac), frac.length⟩
  else none

/-- Model of `_parse_decimal_value` (petrovich.py lines 83-108): clean, join extra
dots, fail on empty (`PriceNotFoundError`), then `Decimal(...)` with
conversion failure also mapped to `PriceNotFoundError` (both modelled as
`none`). -/
def parse_decimal_value (cs : List Char) : Option Dec :=
  let normalized := joinThousandsDots (parse_decimal_cleaned cs)
  if normalized.isEmpty then none
  else pyDecimalOfString normalized

/-! ## Petrovich text-candidate disambiguation
(src/scraper/parsers/petrovich.py, `_extract_price_from_text`, lines 111-153)

The regex `PRICE_TEXT_PATTERN.finditer` part of the function produces, for
each numeric match in the text, the parsed price, the match start offset and
the ±40-character context window around it; that per-match data is the input
of this model (a `TextMatch`), and the scoring, sorting and selection of
lines 121-153 are embedded verbatim. -/

/-- Constant `CARD_CONTEXT_HINTS` (petrovich.py lines 17-27). -/
def CARD_CONTEXT_HINTS : List (List Char) :=
  ["по карте".data, "карте".data, "карты".data, "карту".data, "картой".data,
   "card".data, "bonus".data, "loyal".data, "club".data]

/-- Constant `REGULAR_CONTEXT_HINTS` (petrovich.py lines 28-38). -/
def REGULAR_CONTEXT_HINTS : List (List Char) :=
  ["без карты".data, "не по карте".data, "обыч".data, "рознич".data,
   "retail".data, "regular".data, "стандарт".data, "standard".data, "default".data]

/-- Constant `NEGATIVE_CONTEXT_HINTS` (petrovich.py lines 39-48). -/
def NEGATIVE_CONTEXT_HINTS : List (List Char) :=
  ["мин".data, "макс".data, "от ".data, "до ".data, "sale".data,
   "скид".data, "discount".data, "акци".data]

/-- Model of `any(hint in context_lower for hint in hints)`. -/
def hasAnyHint (hints : List (List Char)) (context_lower : List Char) : Bool :=
  hints.any (fun hint => containsSub hint context_lower)

/-- One regex match of `PRICE_TEXT_PATTERN` inside the (space-normalized)
text: its context window slice, start offset, and the price parsed from the
matched substring by `_parse_decimal_value`. -/
structure TextMatch where
  context_slice : List Char
  start : ℕ
  price : Dec
deriving Repr

/-- Lines 134-144: the priority score of one match.  With `prefer_regular`,
a regular-price hint in the lowercased context gives 0, otherwise a
card-price hint gives 3, otherwise 1; without `prefer_regular` every match
scores 1; a negative hint (min/max/sale/discount/…) adds 1. -/
def matchPriority (prefer_regular : Bool) (context_lower : List Char) : ℕ :=
  let base :=
    if prefer_regular then
      if hasAnyHint REGULAR_CONTEXT_HINTS context_lower then 0
      else if hasAnyHint CARD_CONTEXT_HINTS context_lower then 3
      else 1
    else 1
  if hasAnyHint NEGATIVE_CONTEXT_HINTS context_lower then base + 1 else base

/-- Line 146: a context mentioning the currency (₽/руб/rub/rur) gets bonus
-1, confirming the number is a price. -/
def currencyBonus (context_slice : List Char) : Int :=
  let context_lower := pyLower context_slice
  if containsSub ("₽".data) context_slice || containsSub ("руб".data) context_lower ||
      containsSub ("rub".data) context_lower || containsSub ("rur".data) context_lower
  then -1 else 0

/-- The sort key tuple `(priority, currency_bonus, match.start, price)` of
line 147; `matches.sort()` compares these lexicographically. -/
def matchKey (prefer_regular : Bool) (m : TextMatch) : ℕ × Int × ℕ × ℚ :=
  (matchPriority prefer_regular (pyLower m.context_slice),
   currencyBonus m.context_slice, m.start, m.price.val)

/-- Strict lexicographic comparison of two 4-tuples, as Python compares the
key tuples. -/
def keyLt (a b : ℕ × Int × ℕ × ℚ) : Bool :=
  decide (a.1 < b.1) ||
    (a.1 == b.1 && (decide (a.2.1 < b.2.1) ||
      (a.2.1 == b.2.1 && (decide (a.2.2.1 < b.2.2.1) ||
        (a.2.2.1 == b.2.2.1 && decide (a.2.2.2 < b.2.2.2))))))

/-- Strict lexicographic comparison of the sort keys. -/
def matchKeyLt (prefer_regular : Bool) (a b : TextMatch) : Bool :=
  keyLt (matchKey prefer_regular a) (matchKey prefer_regular b)

/-- Stable insertion into a sorted list: the new element goes after all
elements it does not strictly precede (this reproduces the stability
guarantee of Python's list sort). -/
def pyInsert (lt : α → α → Bool) (x : α) : List α → List α
  | [] => [x]
  | y :: ys => if lt x y then x :: y :: ys else y :: pyInsert lt x ys

/-- Stable sort modelling Python's `list.sort()` / `sorted`, expressed
through the strict comparison `lt` derived from the sort key: the input is
consumed left to right and each element is inserted after every already
placed element with an equal key, so equal-key elements keep their input
order, as Python guarantees. -/
def pySort (lt : α → α → Bool) (l : List α) : List α :=
  l.foldl (fun acc x => pyInsert lt x acc) []

/-- Lines 149-153 of `_extract_price_from_text`: `None` when no match
parsed, else sort by key and return the first match's price. -/
def extract_price_from_text_select (prefer_regular : Bool)
    (ms : List TextMatch) : Option Dec :=
  match pySort (matchKeyLt prefer_regular) ms with
  | [] => none
  | m :: _ => some m.price

/-! ## `fetch_product` failure behavior of the three adapters

Each adapter's extraction strategies are modelled by their results: the
strategy internals (HTML, selectors, regexes) are abstracted into `Option`
inputs, and the control flow that combines them — in particular which
exception is raised when every strategy yields nothing — is taken from the
source. -/

/-- Petrovich `_extract_price` (petrovich.py lines 281-338), called by
`fetch_product`: JSON-LD, the `data-test` retail-price node, the `meta`
price tag, data attributes, `__NEXT_DATA__`, inline scripts, then generic
selectors, in that order; when all yield nothing it raises
`PriceNotFoundError("Price not found on Petrovich product page")`. -/
def petrovich_extract_price (jsonld datatest meta data_attrs next_data scripts selectors :
    Option ℚ) : Except PyExc ℚ :=
  match jsonld with
  | some p => .ok p
  | none =>
  match datatest with
  | some p => .ok p
  | none =>
  match meta with
  | some p => .ok p
  | none =>
  match data_attrs with
  | some p => .ok p
  | none =>
  match next_data with
  | some p => .ok p
  | none =>
  match scripts with
  | some p => .ok p
  | none =>
  match selectors with
  | some p => .ok p
  | none => .error ⟨PyExcClass.PriceNotFoundError, "Price not found on Petrovich product page"⟩

/-- WhiteHills `fetch_product` (whitehills.py lines 408-628): cloudscraper
first, then the monkeypatched-HTML test seam, then in the Playwright session
the DOM selectors, the captured network responses (last captured price
wins), and the JSON-LD payloads; when everything yields nothing, line 628
raises the *generic* `ScraperError("Price not found on WhiteHills product
page")`. -/
def whitehills_fetch_product (cloudscraper monkeypatched dom : Option ℚ)
    (network_prices : List ℚ) (jsonld : Option ℚ) : Except PyExc ℚ :=
  match cloudscraper with
  | some p => .ok p
  | none =>
  match monkeypatched with
  | some p => .ok p
  | none =>
  match dom with
  | some p => .ok p
  | none =>
  match network_prices.getLast? with
  | some p => .ok p
  | none =>
  match jsonld with
  | some p => .ok p
  | none => .error ⟨PyExcClass.ScraperError, "Price not found on WhiteHills product page"⟩

/-- WhiteHills `parse_price` (whitehills.py lines 630-636): parse the given
HTML via `_parse_price_from_soup`; `PriceNotFoundError` when it finds
nothing. -/
def whitehills_parse_price (soup_price : Option ℚ) : Except PyExc ℚ :=
  match soup_price with
  | some p => .ok p
  | none => .error ⟨PyExcClass.PriceNotFoundError, "Price not found on WhiteHills product page"⟩

/-- MK4S `fetch_product` (mk4s.py lines 17-29): a snapshot from the embedded
JSON state, else a snapshot from the DOM, else the *generic*
`ScraperError("MK4S product data not found")` — `PriceNotFoundError` is not
even imported by mk4s.py. -/
def mk4s_fetch_product (json_snapshot dom_snapshot : Option ℚ) : Except PyExc ℚ :=
  match json_snapshot with
  | some p => .ok p
  | none =>
  match dom_snapshot with
  | some p => .ok p
  | none => .error ⟨PyExcClass.ScraperError, "MK4S product data not found"⟩

/-! ## Pricing rule engine (src/pricing/rules.py) -/

/-- The `RuleType` enum from src/db/models.py lines 33-38. -/
inductive RuleType where
  | PERCENT_MARKUP
  | MINUS_FIXED
  | EQUAL
deriving DecidableEq, Repr

/-- In-memory representation of a pricing rule (src/pricing/rules.py lines
11-18).  `value` is a Python float, modelled by its exact rational value;
`priority` defaults to 10 in the source. -/
structure PricingRuleSpec where
  rule_type : RuleType
  value : ℚ
  price_type : String
  priority : Int := 10
deriving DecidableEq, Repr

/-- Model of `apply_rule` (src/pricing/rules.py lines 30-39).  The trailing
`raise ValueError` branch is unreachable: the `RuleType` enum is closed with
exactly the three members matched here, so the function is total. -/
def apply_rule (price : ℚ) (spec : PricingRuleSpec) : ℚ :=
  match spec.rule_type with
  | RuleType.PERCENT_MARKUP => price * (1 + spec.value / 100)
  | RuleType.MINUS_FIXED => max (price - spec.value) 0
  | RuleType.EQUAL => price

/-- Model of `Decimal(value).quantize(Decimal("0.01"), rounding=ROUND_HALF_UP)`:
round to the nearest multiple of 1/100, ties away from zero (Python's
`ROUND_HALF_UP`). -/
def quantize_half_up (x : ℚ) : ℚ :=
  if 0 ≤ x then (⌊x * 100 + 1 / 2⌋ : ℚ) / 100
  else -((⌊-x * 100 + 1 / 2⌋ : ℚ) / 100)

/-- Function `round_price` (src/pricing/rules.py lines 42-46) under the exact-value
semantics of this embedding: the `Decimal(value).quantize(...)` step.  (The
docstring of the source function says "bankers rounding", but the code
passes `ROUND_HALF_UP`.)  The final `float(decimal_value)` conversion of
line 46 changes the value only by the binary64 representation error; it is
modelled exactly by `round_price_float` below, which is the subject of the
claim about exact decimal outputs.  Value-level claims about the engine are
stated through this function. -/
def round_price (value : ℚ) : ℚ :=
  quantize_half_up value

/-- Round a rational to the nearest integer, ties to even (IEEE-754 default). -/
def roundHalfEven (x : ℚ) : Int :=
  let f := ⌊x⌋
  if x - f < 1 / 2 then f
  else if 1 / 2 < x - f then f + 1
  else if f % 2 = 0 then f else f + 1

/-- The exact value of the IEEE-754 binary64 double nearest to `q`
(round-to-nearest-even): the significand is `q` scaled into `[2^52, 2^53)`
and rounded.  Prices are far from overflow and from the subnormal range, so
those regimes are not modelled. -/
def toFloat (q : ℚ) : ℚ :=
  if q = 0 then 0
  else if q < 0 then
    -(let e := Int.log 2 (-q)
      (roundHalfEven (-q * 2 ^ (52 - e)) : ℚ) * 2 ^ (e - 52))
  else
    let e := Int.log 2 q
    (roundHalfEven (q * 2 ^ (52 - e)) : ℚ) * 2 ^ (e - 52)

/-- Function `round_price` exactly as written in src/pricing/rules.py lines 42-46,
including the final `float(decimal_value)` conversion back to a binary
double: `Decimal(value).quantize(Decimal("0.01"), ROUND_HALF_UP)` followed
by `float(...)`. -/
def round_price_float (value : ℚ) : ℚ :=
  toFloat (quantize_half_up value)

/-- The sort key of `apply_pricing_rules` line 57:
`sorted(rules, key=lambda r: (r.priority, r.price_type))` — strict
lexicographic comparison on (priority, price-type name), names compared by
code points as Python compares strings. -/
def ruleKeyLt (a b : PricingRuleSpec) : Bool :=
  decide (a.priority < b.priority) ||
    (a.priority == b.priority && charListLt a.price_type.data b.price_type.data)

/-- Model of `result[key] = value` on an insertion-ordered Python dict: overwrite in
place if the key is present, else append. -/
def insertAssoc (m : List (String × ℚ)) (k : String) (v : ℚ) : List (String × ℚ) :=
  match m with
  | [] => [(k, v)]
  | (k0, v0) :: rest => if k0 = k then (k, v) :: rest else (k0, v0) :: insertAssoc rest k v

/-- Reading `result[name]` from the insertion-ordered dict. -/
def lookupAssoc : List (String × ℚ) → String → Option ℚ
  | [], _ => none
  | (k0, v) :: rest, k => if k0 = k then some v else lookupAssoc rest k

/-- Model of `apply_pricing_rules` (src/pricing/rules.py lines 49-68).  The result is
the insertion-ordered mapping price-type → value.  `fallback_price_types`
is a list; Python's `None` and `[]` are both falsy in the
`if not result and fallback_price_types:` test, so both are modelled by `[]`. -/
def apply_pricing_rules (competitor_price : ℚ) (rules : List PricingRuleSpec)
    (fallback_price_types : List String := []) : List (String × ℚ) :=
  let rule_list := pySort ruleKeyLt rules
  let result := rule_list.foldl
    (fun acc rule => insertAssoc acc rule.price_type
      (round_price (apply_rule competitor_price rule))) []
  if result.isEmpty && !fallback_price_types.isEmpty then
    fallback_price_types.foldl
      (fun acc price_type => insertAssoc acc price_type (round_price competitor_price)) []
  else
    result

/-! ## Orchestrator change detection
(src/pricing/service.py, `PriceMonitorService.check_product`, lines 32-61) -/

/-- The fields of the ORM `Product` that `check_product`'s change detection
reads and writes. -/
structure Product where
  enabled : Bool
  last_price : Option ℚ
deriving Repr

/-- The fields of the `PriceEvent` row that `check_product` creates on a
detected change. -/
structure PriceEvent where
  old_price : Option ℚ
  new_price : ℚ
deriving Repr

/-- Line 42 of service.py:
`price_changed = last_price is None or abs(last_price - new_price) > 0.0001`.
The float literal `0.0001` is modelled by the exact rational 1/10000 (the
nearest double differs from it by less than 2⁻⁶⁶, which cannot affect any
claim considered here, all of whose distances from the threshold are far
larger). -/
def price_changed (last_price : Option ℚ) (new_price : ℚ) : Bool :=
  match last_price with
  | none => true
  | some l => decide (|l - new_price| > 1 / 10000)

/-- Model of `check_product` (service.py lines 32-61) restricted to its
change-detection behavior: disabled products are skipped; `last_price` is
always overwritten with the new price; an event (old price, new price) is
returned iff `price_changed`.  (The MoySklad push and DB session are out of
scope of the claims.) -/
def check_product (product : Product) (new_price : ℚ) : Option PriceEvent × Product :=
  if !product.enabled then (none, product)
  else
    let changed := price_changed product.last_price new_price
    let updated : Product := ⟨product.enabled, some new_price⟩
    if changed then (some ⟨product.last_price, new_price⟩, updated)
    else (none, updated)

/-! ## Claims -/

/-- C10: `PriceNotFoundError` is declared a subclass of `ScraperError`
(base.py lines 44-49), so every "price absent" failure is also a
`ScraperError`: every handler class that intercepts `ScraperError` also
intercepts `PriceNotFoundError`; in an `except` chain listing
`ScraperError` first, the `PriceNotFoundError` branch is dead, so
distinguishing the two requires checking the more specific class first. -/
theorem C10_subclass_shadowing :
    isSubclass PyExcClass.PriceNotFoundError PyExcClass.ScraperError = true ∧
    (∀ h : PyExcClass, isSubclass PyExcClass.ScraperError h = true →
      isSubclass PyExcClass.PriceNotFoundError h = true) ∧
    exceptChain [PyExcClass.ScraperError, PyExcClass.PriceNotFoundError]
      PyExcClass.PriceNotFoundError = some PyExcClass.ScraperError ∧
    exceptChain [PyExcClass.PriceNotFoundError, PyExcClass.ScraperError]
      PyExcClass.PriceNotFoundError = some PyExcClass.PriceNotFoundError := by
  refine ⟨by decide, ?_, by decide, by decide⟩
  intro h hh
  cases h <;> revert hh <;> decide

/-- Witness for C10: instantiating the subclass-propagation conjunct at the
concrete handler class `RuntimeError`. -/
theorem C10_subclass_shadowing_witness :
    isSubclass PyExcClass.ScraperError PyExcClass.RuntimeError = true ∧
    isSubclass PyExcClass.PriceNotFoundError PyExcClass.RuntimeError = true :=
  ⟨by decide, C10_subclass_shadowing.2.1 PyExcClass.RuntimeError (by decide)⟩

/-- C1, counterexample: the claim says *every* adapter's `fetch_product`
fails with `PriceNotFoundError` when no strategy yields a candidate; but
MK4S (mk4s.py line 28) raises the generic
`ScraperError("MK4S product data not found")` — an exception whose class is
not `PriceNotFoundError` and not a subclass of it, so the caller cannot
distinguish it from a transport failure. -/
theorem C1_counterexample :
    mk4s_fetch_product none none =
      Except.error ⟨PyExcClass.ScraperError, "MK4S product data not found"⟩ ∧
    PyExcClass.ScraperError ≠ PyExcClass.PriceNotFoundError ∧
    isSubclass PyExcClass.ScraperError PyExcClass.PriceNotFoundError = false :=
  ⟨rfl, by decide, by decide⟩

/-- C1, amended: when a fetched page yields no price candidate from any
strategy, only the Petrovich adapter fails with `PriceNotFoundError`
(petrovich.py line 338); the WhiteHills and MK4S `fetch_product` raise the
generic `ScraperError` (whitehills.py line 628, mk4s.py line 28) — for
WhiteHills, `PriceNotFoundError` is raised only by its `parse_price` helper
(line 635). -/
theorem C1_adapters_empty_failure :
    petrovich_extract_price none none none none none none none =
      Except.error ⟨PyExcClass.PriceNotFoundError,
        "Price not found on Petrovich product page"⟩ ∧
    whitehills_fetch_product none none none [] none =
      Except.error ⟨PyExcClass.ScraperError,
        "Price not found on WhiteHills product page"⟩ ∧
    mk4s_fetch_product none none =
      Except.error ⟨PyExcClass.ScraperError, "MK4S product data not found"⟩ ∧
    whitehills_parse_price none =
      Except.error ⟨PyExcClass.PriceNotFoundError,
        "Price not found on WhiteHills product page"⟩ :=
  ⟨rfl, rfl, rfl, rfl⟩

/-- C6, counterexample: the claim says any nonzero difference counts as a
change; but `check_product` (service.py line 42) compares with the epsilon
test `abs(last_price - new_price) > 0.0001`, so for a stored price 100 and
a new price 100 + 1/20000 (a nonzero difference of 0.00005) no change is
detected. -/
theorem C6_counterexample :
    (check_product ⟨true, some 100⟩ (100 + 1/20000)).1 = none ∧
    (100 + 1/20000 : ℚ) ≠ 100 := by
  constructor
  · norm_num [check_product, price_changed, abs_of_nonneg]
  · norm_num

/-- C6, amended: `check_product` treats "no previously known price" as
always a change, and otherwise detects a change iff
`|last - new| > 0.0001` — an epsilon comparison with tolerance 1/10000,
not an epsilon-free exact inequality; it always overwrites the stored
price of an enabled product. -/
theorem C6_change_detection :
    ∀ (p : Product) (new_price : ℚ),
      ((check_product p new_price).1.isSome = true ↔
        (p.enabled = true ∧ (p.last_price = none ∨
          ∃ l, p.last_price = some l ∧ 1/10000 < |l - new_price|))) ∧
      (p.enabled = true → (check_product p new_price).2.last_price = some new_price) ∧
      (p.enabled = true → p.last_price = none →
        (check_product p new_price).1 = some ⟨none, new_price⟩) := by
  rintro ⟨en, lp⟩ new_price
  cases en <;> cases lp <;> simp [check_product, price_changed]
  rename_i l
  split_ifs with h <;> simp_all

/-- Witness for C6: on an enabled product with stored price 100, checking
price 102 overwrites the stored price. -/
theorem C6_change_detection_witness :
    (check_product ⟨true, some 100⟩ 102).2.last_price = some 102 :=
  (C6_change_detection ⟨true, some 100⟩ 102).2.1 rfl

/-! ### Association-list and rounding helper lemmas -/

theorem lookupAssoc_insertAssoc (m : List (String × ℚ)) (k : String) (v : ℚ) (name : String) :
    lookupAssoc (insertAssoc m k v) name = if k = name then some v else lookupAssoc m name := by
  induction m with
  | nil => simp [insertAssoc, lookupAssoc]
  | cons head rest ih =>
    obtain ⟨k0, v0⟩ := head
    by_cases h0 : k0 = k
    · subst h0
      by_cases h1 : k0 = name <;> simp [insertAssoc, lookupAssoc, h1]
    · by_cases h1 : k0 = name
      · subst h1
        have h2 : ¬ k = k0 := fun h => h0 h.symm
        simp [insertAssoc, lookupAssoc, h0, h2]
      · simp [insertAssoc, lookupAssoc, h0, h1, ih]

theorem lookupAssoc_fold_const (v : ℚ) (fbs : List String) :
    ∀ (acc : List (String × ℚ)) (name : String),
      lookupAssoc (fbs.foldl (fun a pt => insertAssoc a pt v) acc) name =
        if name ∈ fbs then some v else lookupAssoc acc name := by
  induction fbs with
  | nil => simp
  | cons f fs ih =>
    intro acc name
    simp only [List.foldl_cons, ih, lookupAssoc_insertAssoc, List.mem_cons]
    by_cases h1 : name ∈ fs
    · simp [h1]
    · by_cases h2 : f = name
      · subst h2
        simp [h1]
      · have h3 : ¬ name = f := fun h => h2 h.symm
        simp [h1, h2, h3]

theorem quantize_half_up_mono_nonneg {x y : ℚ} (hx : 0 ≤ x) (hxy : x ≤ y) :
    quantize_half_up x ≤ quantize_half_up y := by
  have hy : 0 ≤ y := le_trans hx hxy
  simp only [quantize_half_up, if_pos hx, if_pos hy]
  have h1 : ⌊x * 100 + 1 / 2⌋ ≤ ⌊y * 100 + 1 / 2⌋ :=
    Int.floor_le_floor (by linarith)
  have h2 : ((⌊x * 100 + 1 / 2⌋ : ℚ)) ≤ ((⌊y * 100 + 1 / 2⌋ : ℚ)) := by exact_mod_cast h1
  linarith

theorem quantize_half_up_eq_self {x : ℚ} (hx : 0 ≤ x) (hden : (x * 100).den = 1) :
    quantize_half_up x = x := by
  have hnum : ((x * 100).num : ℚ) = x * 100 := by
    rw [← Rat.num_div_den (x * 100), hden]
    simp
  simp only [quantize_half_up, if_pos hx]
  rw [← hnum, add_comm, Int.floor_add_int]
  have : ⌊(1:ℚ) / 2⌋ = 0 := by norm_num
  rw [this, zero_add, hnum]
  field_simp

/-- C5: with an empty rule list, `apply_pricing_rules` assigns the rounded,
otherwise unmodified competitor price to every named fallback price-type
(`apply_pricing_rules(p, [], fallback_price_types=["A","B"]shape`), no other
key appears, and with both the rule list and the fallback list empty the
result is the empty mapping (rules.py lines 63-68). -/
theorem C5_fallback_price_types :
    ∀ p : ℚ,
      apply_pricing_rules p [] ["A", "B"] =
        [("A", quantize_half_up p), ("B", quantize_half_up p)] ∧
      apply_pricing_rules p [] [] = [] ∧
      ∀ (fbs : List String) (name : String),
        (name ∈ fbs →
          lookupAssoc (apply_pricing_rules p [] fbs) name = some (round_price p)) ∧
        (name ∉ fbs →
          lookupAssoc (apply_pricing_rules p [] fbs) name = none) := by
  intro p
  refine ⟨?_, ?_, ?_⟩
  · simp +decide [apply_pricing_rules, pySort, insertAssoc, round_price]
  · simp [apply_pricing_rules, pySort]
  · intro fbs name
    cases fbs with
    | nil => simp [apply_pricing_rules, pySort, lookupAssoc]
    | cons f fs =>
      have hrw : apply_pricing_rules p [] (f :: fs) =
          (f :: fs).foldl (fun acc pt => insertAssoc acc pt (round_price p)) [] := by
        simp [apply_pricing_rules, pySort]
      rw [hrw, lookupAssoc_fold_const]
      constructor <;> intro h <;> simp [h, lookupAssoc]

/-- Witness for C5: fallback list `["A", "B"]`, competitor price 100, key
`"A"` is assigned the rounded competitor price. -/
theorem C5_fallback_price_types_witness :
    lookupAssoc (apply_pricing_rules 100 [] ["A", "B"]) "A" = some (round_price 100) :=
  ((C5_fallback_price_types 100).2.2 ["A", "B"] "A").1 (by decide)

/-- C8, counterexample: the claim asserts `result ≥ p` for every
PercentMarkup rule with `v ≥ 0` and `p ≥ 0`; at `p = 1/250` (0.004) and
`v = 0` the computed target price is round-half-up(0.004, 2) = 0.00, which
is strictly below `p`. -/
theorem C8_counterexample :
    (0:ℚ) ≤ 1/250 ∧ (0:ℚ) ≤ 0 ∧
    round_price (apply_rule (1/250) ⟨RuleType.PERCENT_MARKUP, 0, "Retail", 1⟩) < 1/250 := by
  refine ⟨by norm_num, le_refl 0, ?_⟩
  norm_num [round_price, apply_rule, quantize_half_up]

/-- C8, amended: for every PercentMarkup rule with `v ≥ 0` and competitor
price `p ≥ 0`, the computed target price equals
round-half-up(p·(1+v/100), 2), and it is at least round-half-up(p, 2); it
is at least `p` itself whenever `p` is an exact two-decimal value
(`(p*100).den = 1`), though not for finer-grained `p` (see the
counterexample). -/
theorem C8_percent_markup :
    ∀ (p v : ℚ) (pt : String) (pr : Int), 0 ≤ p → 0 ≤ v →
      round_price (apply_rule p ⟨RuleType.PERCENT_MARKUP, v, pt, pr⟩) =
        quantize_half_up (p * (1 + v / 100)) ∧
      quantize_half_up p ≤ round_price (apply_rule p ⟨RuleType.PERCENT_MARKUP, v, pt, pr⟩) ∧
      ((p * 100).den = 1 →
        p ≤ round_price (apply_rule p ⟨RuleType.PERCENT_MARKUP, v, pt, pr⟩)) := by
  intro p v pt pr hp hv
  have hle : p ≤ p * (1 + v / 100) := by
    have h1 : p * (1 + v / 100) = p + p * v / 100 := by ring
    have h2 : 0 ≤ p * v / 100 := by positivity
    linarith
  have hmono : quantize_half_up p ≤ quantize_half_up (p * (1 + v / 100)) :=
    quantize_half_up_mono_nonneg hp hle
  refine ⟨rfl, hmono, ?_⟩
  intro hden
  calc p = quantize_half_up p := (quantize_half_up_eq_self hp hden).symm
    _ ≤ quantize_half_up (p * (1 + v / 100)) := hmono
    _ = round_price (apply_rule p ⟨RuleType.PERCENT_MARKUP, v, pt, pr⟩) := rfl

/-- Witness for C8: `p = 1/4`, `v = 15`: the markup result is at least `p`. -/
theorem C8_percent_markup_witness :
    (1/4 : ℚ) ≤ round_price (apply_rule (1/4) ⟨RuleType.PERCENT_MARKUP, 15, "Retail", 1⟩) :=
  (C8_percent_markup (1/4) 15 "Retail" 1 (by norm_num) (by norm_num)).2.2
    (by norm_num)

/-! ### Binary64 evaluation helpers -/

theorem intLog2_eq_of_bounds (q : ℚ) (e : ℤ) (h0 : 0 < q)
    (h1 : (2:ℚ) ^ e ≤ q) (h2 : q < (2:ℚ) ^ (e + 1)) : Int.log 2 q = e := by
  have h1a : ((2:ℕ):ℚ) ^ e ≤ q := by exact_mod_cast h1
  have h2a : q < ((2:ℕ):ℚ) ^ (e + 1) := by exact_mod_cast h2
  have lb := (Int.zpow_le_iff_le_log (by norm_num) h0).mp h1a
  have ub := (Int.lt_zpow_iff_log_lt (by norm_num) h0).mp h2a
  omega

theorem toFloat_7_100 :
    toFloat ((7:ℚ)/100) = 1261007895663739 / 18014398509481984 := by
  have hlog : Int.log 2 ((7:ℚ)/100) = -4 := by
    apply intLog2_eq_of_bounds _ _ (by norm_num)
    · rw [zpow_neg, le_div_iff₀ (by norm_num)]
      norm_num
    · norm_num
  rw [toFloat, if_neg (by norm_num), if_neg (by norm_num), hlog]
  norm_num [roundHalfEven]

theorem quantize_toFloat_7_100 :
    quantize_half_up (1261007895663739 / 18014398509481984) = 7/100 := by
  norm_num [quantize_half_up]

/-- C3, counterexample: the claim says every value returned by the rule
engine, including `round_price` results, is an exact fixed-point decimal;
but `round_price` (rules.py line 46) converts the quantized `Decimal` back
to a binary `float`.  Feeding it the float 0.07 (the binary64 value nearest
7/100), the returned value is that non-decimal binary approximation again —
it differs from the exact two-decimal result 7/100 that the
`Decimal`-quantization step produced. -/
theorem C3_counterexample :
    round_price_float (toFloat (7/100)) ≠ round_price (toFloat (7/100)) ∧
    round_price (toFloat (7/100)) = 7/100 := by
  constructor
  · rw [round_price_float, round_price, toFloat_7_100, quantize_toFloat_7_100, toFloat_7_100]
    norm_num
  · rw [round_price, toFloat_7_100, quantize_toFloat_7_100]

/-- C3, amended: prices produced by the normalizers are exact decimals and
the `Decimal`-level rounding of rule application is round-half-up to two
decimals — `quantize_half_up` rounds down below a half-cent and up from a
half-cent upward, and its result is an exact two-decimal value (quantizing
again changes nothing); but the value the rule engine *returns* is the
binary64 `float` of that decimal (`round_price_float`), which differs from
the exact decimal whenever the two-decimal value is not binary-representable
(e.g. 0.07). -/
theorem C3_rounding_and_float :
    (∀ x : ℚ, 0 ≤ x →
      ((x * 100 - (⌊x * 100⌋ : ℚ) < 1/2 →
          quantize_half_up x = (⌊x * 100⌋ : ℚ) / 100) ∧
       (1/2 ≤ x * 100 - (⌊x * 100⌋ : ℚ) →
          quantize_half_up x = ((⌊x * 100⌋ : ℚ) + 1) / 100) ∧
       quantize_half_up (quantize_half_up x) = quantize_half_up x)) ∧
    round_price_float (toFloat (7/100)) ≠ quantize_half_up (toFloat (7/100)) := by
  constructor
  · intro x hx
    have hle : (⌊x * 100⌋ : ℚ) ≤ x * 100 := Int.floor_le _
    have hlt : x * 100 < (⌊x * 100⌋ : ℚ) + 1 := Int.lt_floor_add_one _
    refine ⟨?_, ?_, ?_⟩
    · intro hfr
      simp only [quantize_half_up, if_pos hx]
      have : ⌊x * 100 + 1/2⌋ = ⌊x * 100⌋ := by
        rw [Int.floor_eq_iff]
        constructor <;> push_cast <;> linarith
      rw [this]
    · intro hfr
      simp only [quantize_half_up, if_pos hx]
      have : ⌊x * 100 + 1/2⌋ = ⌊x * 100⌋ + 1 := by
        rw [Int.floor_eq_iff]
        constructor <;> push_cast <;> linarith
      rw [this]
      push_cast
      ring
    · have hq0 : quantize_half_up 0 = 0 := by norm_num [quantize_half_up]
      have hqx : 0 ≤ quantize_half_up x := by
        have := quantize_half_up_mono_nonneg (le_refl 0) hx
        rw [hq0] at this
        exact this
      apply quantize_half_up_eq_self hqx
      simp only [quantize_half_up, if_pos hx]
      rw [div_mul_cancel₀ _ (by norm_num : (100:ℚ) ≠ 0)]
      exact Rat.den_intCast _
  · rw [round_price_float, toFloat_7_100, quantize_toFloat_7_100, toFloat_7_100]
    norm_num

/-- Witness for C3: at `x = 1/8` (12.5 cents, exactly a half-cent), the
tie rounds up to 13 cents. -/
theorem C3_rounding_and_float_witness :
    quantize_half_up (1/8) = ((⌊(1:ℚ)/8 * 100⌋ : ℚ) + 1) / 100 :=
  ((C3_rounding_and_float.1 (1/8) (by norm_num)).2.1 (by norm_num))

/-! ### Character facts -/

theorem isDigit_bounds {c : Char} (h : c.isDigit = true) : 48 ≤ c.toNat ∧ c.toNat ≤ 57 := by
  simp [Char.isDigit] at h
  exact h

theorem isDigit_ne {c : Char} (h : c.isDigit = true) (d : Char) (hd : d.isDigit = false) :
    c ≠ d := by
  intro he
  subst he
  rw [h] at hd
  exact absurd hd (by simp)

/-- C7: in the Petrovich text disambiguator with `prefer_regular`, a
candidate whose context window carries a regular-price hint always beats a
candidate (at the same strategy tier — all matches of
`_extract_price_from_text` are one tier) whose context carries a card/
loyalty hint and no regular hint, whatever the currency bonuses, offsets
and values (petrovich.py lines 134-153). -/
theorem C7_prefer_regular_over_card :
    ∀ (m1 m2 : TextMatch),
      hasAnyHint REGULAR_CONTEXT_HINTS (pyLower m1.context_slice) = true →
      hasAnyHint CARD_CONTEXT_HINTS (pyLower m2.context_slice) = true →
      hasAnyHint REGULAR_CONTEXT_HINTS (pyLower m2.context_slice) = false →
      extract_price_from_text_select true [m1, m2] = some m1.price ∧
      extract_price_from_text_select true [m2, m1] = some m1.price := by
  intro m1 m2 h1 h2 h3
  have hp1 : matchPriority true (pyLower m1.context_slice) ≤ 1 := by
    simp only [matchPriority, h1, if_true]
    split_ifs <;> omega
  have hp2 : 3 ≤ matchPriority true (pyLower m2.context_slice) := by
    simp only [matchPriority, h2, h3, if_true, if_false, Bool.false_eq_true]
    split_ifs <;> omega
  have hplt : matchPriority true (pyLower m1.context_slice) <
      matchPriority true (pyLower m2.context_slice) := by omega
  have hlt : matchKeyLt true m1 m2 = true := by
    simp [matchKeyLt, keyLt, matchKey, hplt]
  have hnlt : matchKeyLt true m2 m1 = false := by
    have h4 : ¬ (matchPriority true (pyLower m2.context_slice) <
        matchPriority true (pyLower m1.context_slice)) := by omega
    have h5 : (matchPriority true (pyLower m2.context_slice) ==
        matchPriority true (pyLower m1.context_slice)) = false := by
      simp
      omega
    simp [matchKeyLt, keyLt, matchKey, h4, h5]
  constructor <;>
    simp [extract_price_from_text_select, pySort, pyInsert, hlt, hnlt]

/-- Witness for C7: a context "обычная цена …" (regular price) wins over a
context "… по карте" (card price) regardless of order and offsets. -/
theorem C7_prefer_regular_over_card_witness :
    extract_price_from_text_select true
      [⟨"обычная цена 1790 ₽".data, 0, ⟨1790, 0⟩⟩,
       ⟨"1750 ₽ по карте".data, 50, ⟨1750, 0⟩⟩] = some ⟨1790, 0⟩ :=
  (C7_prefer_regular_over_card
    ⟨"обычная цена 1790 ₽".data, 0, ⟨1790, 0⟩⟩
    ⟨"1750 ₽ по карте".data, 50, ⟨1750, 0⟩⟩
    (by decide) (by decide) (by decide)).1

/-! ### List scanning helper lemmas -/

theorem takeWhile_all_eq {α : Type} {p : α → Bool} :
    ∀ {l : List α}, (∀ c ∈ l, p c = true) → l.takeWhile p = l := by
  intro l h
  induction l with
  | nil => rfl
  | cons c l2 ih =>
    rw [List.takeWhile_cons, h c (List.mem_cons_self _ _)]
    simp only [if_true]
    rw [ih (fun x hx => h x (List.mem_cons_of_mem _ hx))]

theorem dropWhile_all_eq {α : Type} {p : α → Bool} :
    ∀ {l : List α}, (∀ c ∈ l, p c = true) → l.dropWhile p = [] := by
  intro l h
  induction l with
  | nil => rfl
  | cons c l2 ih =>
    rw [List.dropWhile_cons, h c (List.mem_cons_self _ _)]
    simp only [if_true]
    exact ih (fun x hx => h x (List.mem_cons_of_mem _ hx))

theorem takeWhile_append_stop {α : Type} {p : α → Bool} (A B : List α) (x : α)
    (hA : ∀ c ∈ A, p c = true) (hx : p x = false) :
    (A ++ x :: B).takeWhile p = A := by
  induction A with
  | nil => simp [List.takeWhile_cons, hx]
  | cons c A2 ih =>
    rw [List.cons_append, List.takeWhile_cons, hA c (List.mem_cons_self _ _)]
    simp only [if_true]
    rw [ih (fun y hy => hA y (List.mem_cons_of_mem _ hy))]

theorem dropWhile_append_stop {α : Type} {p : α → Bool} (A B : List α) (x : α)
    (hA : ∀ c ∈ A, p c = true) (hx : p x = false) :
    (A ++ x :: B).dropWhile p = x :: B := by
  induction A with
  | nil => simp [List.dropWhile_cons, hx]
  | cons c A2 ih =>
    rw [List.cons_append, List.dropWhile_cons, hA c (List.mem_cons_self _ _)]
    simp only [if_true]
    exact ih (fun y hy => hA y (List.mem_cons_of_mem _ hy))

theorem digitsToNat_replicate_zero (k : ℕ) (l : List Char) :
    digitsToNat (List.replicate k '0' ++ l) = digitsToNat l := by
  induction k with
  | zero => rfl
  | succ k2 ih =>
    rw [List.replicate_succ, List.cons_append]
    show List.foldl _ (10 * 0 + ('0'.toNat - 48)) _ = _
    simpa [digitsToNat] using ih

theorem all_digit_any (A : List Char) (h : A.all Char.isDigit = true) :
    A.any Char.isDigit = !A.isEmpty := by
  cases A with
  | nil => rfl
  | cons c A2 =>
    simp only [List.all_cons, Bool.and_eq_true] at h
    simp [List.any_cons, h.1]

theorem splitOnDot_dotfree (g : List Char) (h : ∀ c ∈ g, c ≠ '.') :
    splitOnDot g = [g] := by
  induction g with
  | nil => rfl
  | cons c g2 ih =>
    rw [splitOnDot, if_neg (h c (List.mem_cons_self _ _))]
    rw [ih (fun x hx => h x (List.mem_cons_of_mem _ hx))]

theorem splitOnDot_append (g cs : List Char) (h : ∀ c ∈ g, c ≠ '.') :
    splitOnDot (g ++ '.' :: cs) = g :: splitOnDot cs := by
  induction g with
  | nil => simp [splitOnDot]
  | cons c g2 ih =>
    rw [List.cons_append, splitOnDot, if_neg (h c (List.mem_cons_self _ _))]
    rw [ih (fun x hx => h x (List.mem_cons_of_mem _ hx))]

theorem count_dot_eq_zero (A : List Char) (h : A.all Char.isDigit = true) :
    A.count '.' = 0 := by
  rw [List.count_eq_zero]
  intro hmem
  rw [List.all_eq_true] at h
  exact isDigit_ne (h '.' hmem) '.' (by decide) rfl

theorem pyDecimal_digits (A : List Char) (h : A.all Char.isDigit = true) :
    pyDecimalOfString A = if A.isEmpty then none else some ⟨digitsToNat A, 0⟩ := by
  have hall : A.all (fun c => c.isDigit || c == '.') = true := by
    rw [List.all_eq_true] at h ⊢
    intro c hc
    simp [h c hc]
  have hfacts : A.count '.' ≤ 1 ∧ (A.all fun c => c.isDigit || c == '.') = true :=
    ⟨by rw [count_dot_eq_zero A h]; omega, hall⟩
  cases hA : A.isEmpty with
  | true =>
    rw [List.isEmpty_iff] at hA
    subst hA
    rfl
  | false =>
    have hany : A.any Char.isDigit = true := by
      rw [all_digit_any A h, hA]
      rfl
    have hne : ∀ c ∈ A, (fun c => c != '.') c = true := by
      intro c hc
      rw [List.all_eq_true] at h
      simp [isDigit_ne (h c hc) '.' (by decide)]
    rw [pyDecimalOfString, if_pos ⟨hfacts.1, hfacts.2, hany⟩]
    rw [takeWhile_all_eq hne, dropWhile_all_eq hne]
    simp

theorem pyDecimal_point (A B : List Char) (hA : A.all Char.isDigit = true)
    (hB : B.all Char.isDigit = true) :
    pyDecimalOfString (A ++ '.' :: B) =
      if (A ++ B).isEmpty then none
      else some ⟨digitsToNat (A ++ B), B.length⟩ := by
  rw [List.all_eq_true] at hA hB
  have hcount : (A ++ '.' :: B).count '.' ≤ 1 := by
    rw [List.count_append, List.count_cons]
    have h1 : A.count '.' = 0 := by
      rw [List.count_eq_zero]
      intro hmem
      exact isDigit_ne (hA '.' hmem) '.' (by decide) rfl
    have h2 : B.count '.' = 0 := by
      rw [List.count_eq_zero]
      intro hmem
      exact isDigit_ne (hB '.' hmem) '.' (by decide) rfl
    simp [h1, h2]
  have hall : (A ++ '.' :: B).all (fun c => c.isDigit || c == '.') = true := by
    rw [List.all_eq_true]
    intro c hc
    rcases List.mem_append.mp hc with hc1 | hc2
    · simp [hA c hc1]
    · rcases List.mem_cons.mp hc2 with hc3 | hc4
      · subst hc3
        rfl
      · simp [hB c hc4]
  have hAne : ∀ c ∈ A, (fun c => c != '.') c = true := by
    intro c hc
    simp [isDigit_ne (hA c hc) '.' (by decide)]
  have hdot : (fun c => c != '.') '.' = false := by decide
  cases hE : (A ++ B).isEmpty with
  | true =>
    rw [List.isEmpty_iff, List.append_eq_nil] at hE
    obtain ⟨hA0, hB0⟩ := hE
    subst hA0
    subst hB0
    rfl
  | false =>
    have hany : (A ++ '.' :: B).any Char.isDigit = true := by
      rcases hA2 : A with _ | ⟨c, A3⟩
      · subst hA2
        rcases hB2 : B with _ | ⟨d, B3⟩
        · subst hB2
          simp at hE
        · subst hB2
          simp [List.any_cons, hB d (List.mem_cons_self _ _)]
      · subst hA2
        simp [List.any_cons, hA c (List.mem_cons_self _ _)]
    rw [pyDecimalOfString, if_pos ⟨hcount, hall, hany⟩]
    rw [takeWhile_append_stop A B '.' hAne hdot, dropWhile_append_stop A B '.' hAne hdot]
    simp

/-! ### Cleaning-pipeline identity lemmas -/

theorem map_id_on {α : Type} {f : α → α} :
    ∀ {l : List α}, (∀ c ∈ l, f c = c) → l.map f = l := by
  intro l h
  induction l with
  | nil => rfl
  | cons c l2 ih =>
    rw [List.map_cons, h c (List.mem_cons_self _ _),
      ih (fun x hx => h x (List.mem_cons_of_mem _ hx))]

theorem filter_id_on {α : Type} {p : α → Bool} :
    ∀ {l : List α}, (∀ c ∈ l, p c = true) → l.filter p = l := by
  intro l h
  induction l with
  | nil => rfl
  | cons c l2 ih =>
    rw [List.filter_cons_of_pos (h c (List.mem_cons_self _ _)),
      ih (fun x hx => h x (List.mem_cons_of_mem _ hx))]

theorem parse_decimal_cleaned_id (l : List Char)
    (h : ∀ c ∈ l, c.isDigit = true ∨ c = '.') : parse_decimal_cleaned l = l := by
  have s1 : l.map (fun c =>
      if c.toNat = 0xa0 ∨ c.toNat = 0x2009 ∨ c.toNat = 0x202f then ' ' else c) = l := by
    apply map_id_on
    intro c hc
    apply if_neg
    rcases h c hc with hd | hdot
    · have := isDigit_bounds hd
      omega
    · subst hdot
      decide
  have s2 : l.filter (fun c => c != ' ') = l := by
    apply filter_id_on
    intro c hc
    rcases h c hc with hd | hdot
    · simp [isDigit_ne hd ' ' (by decide)]
    · subst hdot
      decide
  have s3 : l.filter (fun c => c.isDigit || c == ',' || c == '.') = l := by
    apply filter_id_on
    intro c hc
    rcases h c hc with hd | hdot
    · simp [hd]
    · subst hdot
      decide
  have s4 : l.map (fun c => if c == ',' then '.' else c) = l := by
    apply map_id_on
    intro c hc
    apply if_neg
    rcases h c hc with hd | hdot
    · simp [isDigit_ne hd ',' (by decide)]
    · subst hdot
      decide
  simp only [parse_decimal_cleaned, s1, s2, s3, s4]

theorem to_decimal_cleaned_id (l : List Char)
    (h : ∀ c ∈ l, c.isDigit = true ∨ c = '.') : to_decimal_cleaned l = l := by
  have hsp : ∀ c ∈ l, isPySpace c = false := by
    intro c hc
    rcases h c hc with hd | hdot
    · have := isDigit_bounds hd
      simp [isPySpace]
      omega
    · subst hdot
      decide
  have s1 : l.filter (fun c => isPySpace c || c.isDigit || c == '.' || c == ',') = l := by
    apply filter_id_on
    intro c hc
    rcases h c hc with hd | hdot
    · simp [hd]
    · subst hdot
      decide
  have s2 : l.filter (fun c => !isPySpace c) = l := by
    apply filter_id_on
    intro c hc
    simp [hsp c hc]
  have s4 : l.map (fun c => if c == ',' then '.' else c) = l := by
    apply map_id_on
    intro c hc
    apply if_neg
    rcases h c hc with hd | hdot
    · simp [isDigit_ne hd ',' (by decide)]
    · subst hdot
      decide
  simp only [to_decimal_cleaned, s1, s2, s4]

/-- C4, counterexample: the claim says the *shared* decimal normalizer
joins all but the last dot into the integer part, so "1.234.56" would parse
as 1234.56; but the shared `to_decimal` (base.py lines 28-41) has no such
joining — its unanchored search takes the first
integer-with-up-to-2-decimals token and parses "1.234.56" as 1.23. -/
theorem C4_counterexample :
    to_decimal ("1.234.56".data) = some ⟨123, 2⟩ ∧
    Dec.val ⟨123, 2⟩ ≠ Dec.val ⟨123456, 2⟩ :=
  ⟨by decide, by norm_num [Dec.val]⟩

/-- C4, amended: the thousands-joining of extra dots lives in the
Petrovich-specific `_parse_decimal_value` (petrovich.py lines 96-100): for
digit groups `a`, `b`, `c`, the input `a.b.c` parses as the decimal
`(a++b).c` — in particular "1.234.56" parses as 1234.56 — while the shared
`to_decimal` parses "1.234.56" as 1.23 (first token, no joining).
Whitespace variants such as non-breaking space are thousands separators in
the shared normalizer: `to_decimal "2\u00A0200" = 2200` exactly. -/
theorem C4_normalizers_multidot :
    (∀ a b c : List Char,
      a.all Char.isDigit = true → b.all Char.isDigit = true → c.all Char.isDigit = true →
      parse_decimal_value (a ++ ('.' :: (b ++ ('.' :: c)))) =
        if (a ++ b ++ c).isEmpty then none
        else some ⟨digitsToNat (a ++ b ++ c), c.length⟩) ∧
    to_decimal ("2\u00A0200".data) = some ⟨2200, 0⟩ ∧
    parse_decimal_value ("1.234.56".data) = some ⟨123456, 2⟩ ∧
    to_decimal ("1.234.56".data) = some ⟨123, 2⟩ := by
  refine ⟨?_, by decide, by decide, by decide⟩
  intro a b c ha hb hc
  have hadot : ∀ x ∈ a, x ≠ '.' :=
    fun x hx => isDigit_ne (List.all_eq_true.mp ha x hx) '.' (by decide)
  have hbdot : ∀ x ∈ b, x ≠ '.' :=
    fun x hx => isDigit_ne (List.all_eq_true.mp hb x hx) '.' (by decide)
  have hcdot : ∀ x ∈ c, x ≠ '.' :=
    fun x hx => isDigit_ne (List.all_eq_true.mp hc x hx) '.' (by decide)
  have hmem : ∀ x ∈ (a ++ ('.' :: (b ++ ('.' :: c)))), x.isDigit = true ∨ x = '.' := by
    intro x hx
    rcases List.mem_append.mp hx with h1 | h2
    · exact Or.inl (List.all_eq_true.mp ha x h1)
    · rcases List.mem_cons.mp h2 with h3 | h4
      · exact Or.inr h3
      · rcases List.mem_append.mp h4 with h5 | h6
        · exact Or.inl (List.all_eq_true.mp hb x h5)
        · rcases List.mem_cons.mp h6 with h7 | h8
          · exact Or.inr h7
          · exact Or.inl (List.all_eq_true.mp hc x h8)
  have hcount : (a ++ ('.' :: (b ++ ('.' :: c)))).count '.' = 2 := by
    rw [List.count_append, List.count_cons, List.count_append, List.count_cons]
    rw [count_dot_eq_zero a ha, count_dot_eq_zero b hb, count_dot_eq_zero c hc]
    simp
  have hsplit : splitOnDot (a ++ ('.' :: (b ++ ('.' :: c)))) = [a, b, c] := by
    rw [splitOnDot_append a _ hadot, splitOnDot_append b _ hbdot, splitOnDot_dotfree c hcdot]
  have hjoin : joinThousandsDots (a ++ ('.' :: (b ++ ('.' :: c)))) =
      if c.isEmpty then a ++ b else (a ++ b) ++ '.' :: c := by
    simp only [joinThousandsDots, hcount, hsplit]
    rw [if_pos (by norm_num)]
    simp [List.dropLast, List.getLastD]
  simp only [parse_decimal_value, parse_decimal_cleaned_id _ hmem, hjoin]
  cases hce : c.isEmpty with
  | true =>
    rw [List.isEmpty_iff] at hce
    subst hce
    simp only [if_true, List.append_nil]
    cases hab : (a ++ b).isEmpty with
    | true => simp
    | false =>
      simp only [show (false = true) = False by simp, if_false]
      rw [pyDecimal_digits (a ++ b) (by simp [List.all_append] at ha hb ⊢; exact ⟨ha, hb⟩)]
      rw [hab]
      simp
  | false =>
    simp only [Bool.false_eq_true, if_false]
    have hjone : ((a ++ b) ++ '.' :: c).isEmpty = false := by
      cases a ++ b <;> rfl
    rw [hjone]
    simp only [Bool.false_eq_true, if_false]
    rw [pyDecimal_point (a ++ b) c (by simp [List.all_append] at ha hb ⊢; exact ⟨ha, hb⟩) hc]

/-- Witness for C4: the groups "1", "234", "56" of the spec example. -/
theorem C4_normalizers_multidot_witness :
    parse_decimal_value ("1".data ++ ('.' :: ("234".data ++ ('.' :: "56".data)))) =
      if ("1".data ++ "234".data ++ "56".data).isEmpty then none
      else some ⟨digitsToNat ("1".data ++ "234".data ++ "56".data), "56".data.length⟩ :=
  C4_normalizers_multidot.1 "1".data "234".data "56".data (by decide) (by decide) (by decide)

/-! ### Order facts for the rule sort -/

theorem charListLt_irrefl : ∀ l : List Char, charListLt l l = false := by
  intro l
  induction l with
  | nil => rfl
  | cons a as ih =>
    rw [charListLt, if_neg (lt_irrefl a), if_neg (lt_irrefl a)]
    exact ih

theorem charListLt_connect :
    ∀ s t : List Char, charListLt s t = false → charListLt t s = false → s = t := by
  intro s
  induction s with
  | nil =>
    intro t h1 _
    cases t with
    | nil => rfl
    | cons b bs => simp [charListLt] at h1
  | cons a as ih =>
    intro t h1 h2
    cases t with
    | nil => simp [charListLt] at h2
    | cons b bs =>
      rw [charListLt] at h1 h2
      by_cases hab : a < b
      · rw [if_pos hab] at h1
        exact absurd h1 (by simp)
      · rw [if_neg hab] at h1
        by_cases hba : b < a
        · rw [if_pos hba] at h2
          exact absurd h2 (by simp)
        · rw [if_neg hba, if_neg hab] at h2
          rw [if_neg hba] at h1
          have heq : a = b := le_antisymm (not_lt.mp hba) (not_lt.mp hab)
          rw [heq, ih bs h1 h2]

theorem charListLt_trans :
    ∀ s t u : List Char, charListLt s t = true → charListLt t u = true →
      charListLt s u = true := by
  intro s
  induction s with
  | nil =>
    intro t u h1 h2
    cases t with
    | nil => simp [charListLt] at h1
    | cons b bs =>
      cases u with
      | nil => simp [charListLt] at h2
      | cons c cs => rfl
  | cons a as ih =>
    intro t u h1 h2
    cases t with
    | nil => simp [charListLt] at h1
    | cons b bs =>
      cases u with
      | nil => simp [charListLt] at h2
      | cons c cs =>
        rw [charListLt] at h1 h2 ⊢
        by_cases hab : a < b
        · by_cases hbc : b < c
          · rw [if_pos (lt_trans hab hbc)]
          · rw [if_neg hbc] at h2
            by_cases hcb : c < b
            · rw [if_pos hcb] at h2
              exact absurd h2 (by simp)
            · have heq : b = c := le_antisymm (not_lt.mp hcb) (not_lt.mp hbc)
              rw [if_pos (heq ▸ hab)]
        · rw [if_neg hab] at h1
          by_cases hba : b < a
          · rw [if_pos hba] at h1
            exact absurd h1 (by simp)
          · rw [if_neg hba] at h1
            have heq : a = b := le_antisymm (not_lt.mp hba) (not_lt.mp hab)
            by_cases hbc : b < c
            · rw [if_pos (heq ▸ hbc)]
            · rw [if_neg hbc] at h2
              by_cases hcb : c < b
              · rw [if_pos hcb] at h2
                exact absurd h2 (by simp)
              · rw [if_neg hcb] at h2
                rw [if_neg (heq ▸ hbc), if_neg (heq ▸ hcb)]
                exact ih bs cs h1 h2

theorem pyInsert_perm {α : Type} (lt : α → α → Bool) (x : α) :
    ∀ l : List α, (pyInsert lt x l).Perm (x :: l) := by
  intro l
  induction l with
  | nil => exact List.Perm.refl _
  | cons y ys ih =>
    rw [pyInsert]
    by_cases h : lt x y = true
    · rw [if_pos h]
    · rw [if_neg h]
      exact (ih.cons y).trans (List.Perm.swap x y ys)

theorem pySort_perm_aux {α : Type} (lt : α → α → Bool) :
    ∀ (l : List α) (acc : List α),
      (l.foldl (fun acc x => pyInsert lt x acc) acc).Perm (acc ++ l) := by
  intro l
  induction l with
  | nil =>
    intro acc
    rw [List.append_nil]
    exact List.Perm.refl _
  | cons x xs ih =>
    intro acc
    rw [List.foldl_cons]
    have h1 := ih (pyInsert lt x acc)
    have h2 : (pyInsert lt x acc ++ xs).Perm (acc ++ x :: xs) := by
      have h3 : (pyInsert lt x acc ++ xs).Perm ((x :: acc) ++ xs) :=
        (pyInsert_perm lt x acc).append_right xs
      exact h3.trans (List.perm_middle.symm)
    exact h1.trans h2

theorem pySort_perm {α : Type} (lt : α → α → Bool) :
    ∀ l : List α, (pySort lt l).Perm l := by
  intro l
  have h := pySort_perm_aux lt l []
  rw [List.nil_append] at h
  exact h

theorem pyInsert_sorted {α : Type} {lt : α → α → Bool} {le : α → α → Prop}
    (hf : ∀ a b, lt a b = false → le b a)
    (ht : ∀ a b, lt a b = true → le a b)
    (htr : ∀ a b c, le a b → le b c → le a c) (x : α) :
    ∀ l : List α, l.Sorted le → (pyInsert lt x l).Sorted le := by
  intro l
  induction l with
  | nil =>
    intro
    simp [pyInsert]
  | cons y ys ih =>
    intro hs
    rw [List.sorted_cons] at hs
    rw [pyInsert]
    by_cases h : lt x y = true
    · rw [if_pos h]
      rw [List.sorted_cons]
      refine ⟨?_, List.sorted_cons.mpr hs⟩
      intro b hb
      rcases List.mem_cons.mp hb with hb1 | hb2
      · rw [hb1]
        exact ht x y h
      · exact htr x y b (ht x y h) (hs.1 b hb2)
    · rw [if_neg h]
      rw [List.sorted_cons]
      refine ⟨?_, ih hs.2⟩
      intro b hb
      have hmem := (pyInsert_perm lt x ys).mem_iff.mp hb
      rcases List.mem_cons.mp hmem with hb1 | hb2
      · rw [hb1]
        exact hf x y (by revert h; cases lt x y <;> simp)
      · exact hs.1 b hb2

theorem pySort_sorted_aux {α : Type} {lt : α → α → Bool} {le : α → α → Prop}
    (hf : ∀ a b, lt a b = false → le b a)
    (ht : ∀ a b, lt a b = true → le a b)
    (htr : ∀ a b c, le a b → le b c → le a c) :
    ∀ (l : List α) (acc : List α), acc.Sorted le →
      (l.foldl (fun acc x => pyInsert lt x acc) acc).Sorted le := by
  intro l
  induction l with
  | nil =>
    intro acc hacc
    exact hacc
  | cons x xs ih =>
    intro acc hacc
    rw [List.foldl_cons]
    exact ih _ (pyInsert_sorted hf ht htr x acc hacc)

theorem pySort_sorted {α : Type} {lt : α → α → Bool} {le : α → α → Prop}
    (hf : ∀ a b, lt a b = false → le b a)
    (ht : ∀ a b, lt a b = true → le a b)
    (htr : ∀ a b c, le a b → le b c → le a c) :
    ∀ l : List α, (pySort lt l).Sorted le := by
  intro l
  exact pySort_sorted_aux hf ht htr l [] List.sorted_nil

/-- Non-strict lexicographic order on (priority, price-type name): the order
in which `apply_pricing_rules` processes the rules. -/
def ruleLeProp (a b : PricingRuleSpec) : Prop :=
  a.priority < b.priority ∨ (a.priority = b.priority ∧
    (charListLt a.price_type.data b.price_type.data = true ∨ a.price_type = b.price_type))

theorem ruleKeyLt_false_le (a b : PricingRuleSpec) (h : ruleKeyLt a b = false) :
    ruleLeProp b a := by
  have h1 : ¬ a.priority < b.priority := by
    intro hlt
    rw [ruleKeyLt] at h
    simp [hlt] at h
  have h2 : a.priority = b.priority →
      charListLt a.price_type.data b.price_type.data = false := by
    intro he
    rw [ruleKeyLt] at h
    simp [he] at h
    exact h
  rcases lt_trichotomy a.priority b.priority with hlt | he | hgt
  · exact absurd hlt h1
  · right
    refine ⟨he.symm, ?_⟩
    cases hc : charListLt b.price_type.data a.price_type.data with
    | true => exact Or.inl rfl
    | false =>
      right
      have hdata := charListLt_connect _ _ hc (h2 he)
      have : b.price_type = a.price_type := by
        rcases hb : b.price_type with ⟨db⟩
        rcases ha2 : a.price_type with ⟨da⟩
        rw [hb, ha2] at hdata
        simp at hdata
        rw [hdata]
      exact this
  · exact Or.inl hgt

theorem ruleKeyLt_true_le (a b : PricingRuleSpec) (h : ruleKeyLt a b = true) :
    ruleLeProp a b := by
  rw [ruleKeyLt] at h
  simp only [Bool.or_eq_true, decide_eq_true_eq, Bool.and_eq_true, beq_iff_eq] at h
  rcases h with h | ⟨he, hc⟩
  · exact Or.inl h
  · exact Or.inr ⟨he, Or.inl hc⟩

theorem ruleLeProp_trans (a b c : PricingRuleSpec) :
    ruleLeProp a b → ruleLeProp b c → ruleLeProp a c := by
  rintro (h1 | ⟨he1, hs1⟩) (h2 | ⟨he2, hs2⟩)
  · exact Or.inl (lt_trans h1 h2)
  · exact Or.inl (he2 ▸ h1)
  · exact Or.inl (he1 ▸ h2)
  · right
    refine ⟨he1.trans he2, ?_⟩
    rcases hs1 with hc1 | heq1
    · rcases hs2 with hc2 | heq2
      · exact Or.inl (charListLt_trans _ _ _ hc1 hc2)
      · exact Or.inl (heq2 ▸ hc1)
    · rcases hs2 with hc2 | heq2
      · exact Or.inl (heq1.symm ▸ hc2)
      · exact Or.inr (heq1.trans heq2)

theorem getLast?_cons_of_ne_nil {α : Type} (a : α) {l : List α} (h : l ≠ []) :
    (a :: l).getLast? = l.getLast? := by
  cases l with
  | nil => exact absurd rfl h
  | cons b bs => exact List.getLast?_cons_cons

theorem lookupAssoc_foldl_rules (p : ℚ) :
    ∀ (l : List PricingRuleSpec) (acc : List (String × ℚ)) (name : String),
      lookupAssoc (l.foldl
        (fun a r => insertAssoc a r.price_type (round_price (apply_rule p r))) acc) name =
      (match (l.filter (fun r => r.price_type == name)).getLast? with
       | some r => some (round_price (apply_rule p r))
       | none => lookupAssoc acc name) := by
  intro l
  induction l with
  | nil =>
    intro acc name
    rfl
  | cons r l2 ih =>
    intro acc name
    rw [List.foldl_cons, ih]
    by_cases hf : (r.price_type == name) = true
    · have hfc : (r :: l2).filter (fun r => r.price_type == name) =
          r :: l2.filter (fun r => r.price_type == name) := by
        simp [List.filter_cons, hf]
      rw [hfc]
      cases hfl : (l2.filter (fun r => r.price_type == name)).getLast? with
      | some r2 =>
        have hne : l2.filter (fun r => r.price_type == name) ≠ [] := by
          intro h0
          rw [h0] at hfl
          simp at hfl
        rw [getLast?_cons_of_ne_nil r hne, hfl]
      | none =>
        have hnil : l2.filter (fun r => r.price_type == name) = [] := by
          cases hh : l2.filter (fun r => r.price_type == name) with
          | nil => rfl
          | cons a as =>
            rw [hh] at hfl
            simp [List.getLast?_eq_getLast] at hfl
        rw [hnil, lookupAssoc_insertAssoc]
        have hpt : r.price_type = name := by simpa using hf
        simp [hpt]
    · have hf2 : (r.price_type == name) = false := by
        revert hf
        cases r.price_type == name <;> simp
      have hfc : (r :: l2).filter (fun r => r.price_type == name) =
          l2.filter (fun r => r.price_type == name) := by
        simp [List.filter_cons, hf2]
      rw [hfc]
      cases hfl : (l2.filter (fun r => r.price_type == name)).getLast? with
      | some r2 => rfl
      | none =>
        rw [lookupAssoc_insertAssoc]
        have hpt : ¬ r.price_type = name := by simpa using hf2
        simp [hpt]

/-- C2: for every competitor price and non-empty rule list,
`apply_pricing_rules` processes the rules sorted ascending by (priority,
price-type name), computes PercentMarkup(v) = p·(1+v/100),
MinusFixed(v) = max(p−v, 0) and EqualToCompetitor = p, rounds half-up to 2
decimals, and stores under the rule's price-type — the value under each
name being that of the *last* sorted rule naming it (later-sorted rules
silently overwrite earlier ones); in particular PercentMarkup(10) at
priority 1 and MinusFixed(5) at priority 2, both on "Retail", at competitor
price 100 yield "Retail" = 95.00, and — `sorted` being stable — the same
holds when both rules share priority 1, the later-listed rule winning
(rules.py lines 30-39, 49-68). -/
theorem C2_rule_engine_order :
    ∀ (p : ℚ) (rules : List PricingRuleSpec), rules ≠ [] →
      (pySort ruleKeyLt rules).Perm rules ∧
      (pySort ruleKeyLt rules).Sorted ruleLeProp ∧
      (∀ name : String,
        lookupAssoc (apply_pricing_rules p rules []) name =
          ((pySort ruleKeyLt rules).filter (fun r => r.price_type == name)).getLast?.map
            (fun r => quantize_half_up
              (match r.rule_type with
               | RuleType.PERCENT_MARKUP => p * (1 + r.value / 100)
               | RuleType.MINUS_FIXED => max (p - r.value) 0
               | RuleType.EQUAL => p))) ∧
      apply_pricing_rules 100
        [⟨RuleType.PERCENT_MARKUP, 10, "Retail", 1⟩, ⟨RuleType.MINUS_FIXED, 5, "Retail", 2⟩]
        [] = [("Retail", 95)] ∧
      apply_pricing_rules 100
        [⟨RuleType.PERCENT_MARKUP, 10, "Retail", 1⟩, ⟨RuleType.MINUS_FIXED, 5, "Retail", 1⟩]
        [] = [("Retail", 95)] := by
  intro p rules _
  refine ⟨pySort_perm _ _,
    pySort_sorted ruleKeyLt_false_le ruleKeyLt_true_le ruleLeProp_trans _, ?_, ?_, ?_⟩
  · intro name
    have happ : apply_pricing_rules p rules [] =
        (pySort ruleKeyLt rules).foldl
          (fun a r => insertAssoc a r.price_type (round_price (apply_rule p r))) [] := by
      simp [apply_pricing_rules]
    rw [happ, lookupAssoc_foldl_rules]
    cases hfl : ((pySort ruleKeyLt rules).filter (fun r => r.price_type == name)).getLast? with
    | none => rfl
    | some r =>
      rcases r with ⟨rt, v, pt, pr⟩
      cases rt <;> rfl
  · norm_num [apply_pricing_rules, pySort, pyInsert, ruleKeyLt, insertAssoc, round_price,
      quantize_half_up, apply_rule]
  · norm_num [apply_pricing_rules, pySort, pyInsert, ruleKeyLt, charListLt, insertAssoc,
      round_price, quantize_half_up, apply_rule]

/-- Witness for C2: the spec scenario itself (a non-empty rule list). -/
theorem C2_rule_engine_order_witness :
    apply_pricing_rules 100
      [⟨RuleType.PERCENT_MARKUP, 10, "Retail", 1⟩, ⟨RuleType.MINUS_FIXED, 5, "Retail", 2⟩]
      [] = [("Retail", 95)] :=
  (C2_rule_engine_order 100
    [⟨RuleType.PERCENT_MARKUP, 10, "Retail", 1⟩, ⟨RuleType.MINUS_FIXED, 5, "Retail", 2⟩]
    (by simp)).2.2.2.1

/-! ### Decimal rendering round-trip (for idempotence) -/

theorem natDigits_all_digit (n : ℕ) : (natDigits n).all Char.isDigit = true := by
  rw [natDigits]
  by_cases hn : n = 0
  · rw [if_pos hn]
    decide
  · rw [if_neg hn]
    rw [List.all_eq_true]
    intro c hc
    rw [List.mem_map] at hc
    obtain ⟨d, hd, rfl⟩ := hc
    rw [List.mem_reverse] at hd
    have hdlt : d < 10 := Nat.digits_lt_base (by norm_num) hd
    have hgen : ∀ k : ℕ, k < 10 → (Char.ofNat (48 + k)).isDigit = true := by decide
    exact hgen d hdlt

theorem natDigits_ne_nil (n : ℕ) : natDigits n ≠ [] := by
  rw [natDigits]
  by_cases hn : n = 0
  · rw [if_pos hn]
    simp
  · rw [if_neg hn]
    simp [Nat.digits_ne_nil_iff_ne_zero.mpr hn]

theorem digitsToNat_of_digits (l : List ℕ) (h : ∀ d ∈ l, d < 10) :
    digitsToNat (l.reverse.map (fun d => Char.ofNat (48 + d))) = Nat.ofDigits 10 l := by
  induction l with
  | nil => rfl
  | cons d l2 ih =>
    rw [List.reverse_cons, List.map_append,
      show List.map (fun d => Char.ofNat (48 + d)) [d] = [Char.ofNat (48 + d)] from rfl]
    have hsingle : ∀ (A : List Char) (c : Char),
        digitsToNat (A ++ [c]) = 10 * digitsToNat A + (c.toNat - 48) := by
      intro A c
      rw [digitsToNat, List.foldl_append]
      rfl
    rw [hsingle]
    rw [ih (fun x hx => h x (List.mem_cons_of_mem _ hx))]
    have hd : d < 10 := h d (List.mem_cons_self _ _)
    have hchar : (Char.ofNat (48 + d)).toNat - 48 = d := by
      have hgen : ∀ k : ℕ, k < 10 → (Char.ofNat (48 + k)).toNat - 48 = k := by decide
      exact hgen d hd
    rw [hchar, Nat.ofDigits_cons]
    push_cast
    ring

theorem digitsToNat_natDigits (n : ℕ) : digitsToNat (natDigits n) = n := by
  rw [natDigits]
  by_cases hn : n = 0
  · rw [if_pos hn, hn]
    rfl
  · rw [if_neg hn]
    rw [digitsToNat_of_digits _ (fun d hd => Nat.digits_lt_base (by norm_num) hd)]
    exact Nat.ofDigits_digits 10 n

theorem to_decimal_decStr (n e : ℕ) (he : e ≤ 2) :
    to_decimal (decStr ⟨n, e⟩) = some ⟨n, e⟩ := by
  have hall : ∀ c ∈ natDigits n, c.isDigit = true :=
    List.all_eq_true.mp (natDigits_all_digit n)
  by_cases he0 : e = 0
  · subst he0
    have hds : decStr ⟨n, 0⟩ = natDigits n := by simp [decStr]
    rw [hds]
    have hclean : to_decimal_cleaned (natDigits n) = natDigits n :=
      to_decimal_cleaned_id _ (fun c hc => Or.inl (hall c hc))
    have hne : (natDigits n).isEmpty = false := by
      cases hh : natDigits n with
      | nil => exact absurd hh (natDigits_ne_nil n)
      | cons c cs => rfl
    have hmt : matchFullToken (natDigits n) = some (natDigits n, []) := by
      simp only [matchFullToken, takeWhile_all_eq hall, dropWhile_all_eq hall, hne,
        Bool.false_eq_true, if_false]
    simp only [to_decimal, hclean, hmt]
    simp [digitsToNat_natDigits]
  · -- e = 1 or 2
    have he1 : 1 ≤ e := Nat.one_le_iff_ne_zero.mpr he0
    set s := natDigits n with hsdef
    set s2 := List.replicate (e + 1 - s.length) '0' ++ s with hs2def
    have hs2all : ∀ c ∈ s2, c.isDigit = true := by
      intro c hc
      rcases List.mem_append.mp hc with h1 | h2
      · rw [List.eq_of_mem_replicate h1]
        decide
      · exact hall c h2
    have hs2len : e + 1 ≤ s2.length := by
      rw [hs2def, List.length_append, List.length_replicate]
      omega
    have hA : ∀ c ∈ s2.take (s2.length - e), c.isDigit = true :=
      fun c hc => hs2all c (List.mem_of_mem_take hc)
    have hB : ∀ c ∈ s2.drop (s2.length - e), c.isDigit = true :=
      fun c hc => hs2all c (List.mem_of_mem_drop hc)
    have hAlen : (s2.take (s2.length - e)).length = s2.length - e := by
      rw [List.length_take]
      omega
    have hBlen : (s2.drop (s2.length - e)).length = e := by
      rw [List.length_drop]
      omega
    have hAne : (s2.take (s2.length - e)).isEmpty = false := by
      cases hh : s2.take (s2.length - e) with
      | nil =>
        rw [hh] at hAlen
        simp at hAlen
        omega
      | cons c cs => rfl
    have hBne : (s2.drop (s2.length - e)).isEmpty = false := by
      cases hh : s2.drop (s2.length - e) with
      | nil =>
        rw [hh] at hBlen
        simp at hBlen
        omega
      | cons c cs => rfl
    have hds : decStr ⟨n, e⟩ =
        s2.take (s2.length - e) ++ '.' :: s2.drop (s2.length - e) := by
      rw [decStr, if_neg he0]
    rw [hds]
    have hclean : to_decimal_cleaned
        (s2.take (s2.length - e) ++ '.' :: s2.drop (s2.length - e)) =
        s2.take (s2.length - e) ++ '.' :: s2.drop (s2.length - e) := by
      apply to_decimal_cleaned_id
      intro c hc
      rcases List.mem_append.mp hc with h1 | h2
      · exact Or.inl (hA c h1)
      · rcases List.mem_cons.mp h2 with h3 | h4
        · exact Or.inr h3
        · exact Or.inl (hB c h4)
    have hmt : matchFullToken
        (s2.take (s2.length - e) ++ '.' :: s2.drop (s2.length - e)) =
        some (s2.take (s2.length - e), s2.drop (s2.length - e)) := by
      have htw := takeWhile_append_stop (s2.take (s2.length - e))
        (s2.drop (s2.length - e)) '.' hA (by decide)
      have hdw := dropWhile_append_stop (s2.take (s2.length - e))
        (s2.drop (s2.length - e)) '.' hA (by decide)
      have hcond : (!(s2.drop (s2.length - e)).isEmpty &&
          decide ((s2.drop (s2.length - e)).length ≤ 2) &&
          (s2.drop (s2.length - e)).all Char.isDigit) = true := by
        rw [hBne, List.all_eq_true.mpr hB]
        rw [hBlen]
        simp [decide_eq_true_eq]
        omega
      simp only [matchFullToken, htw, hdw, hAne, Bool.false_eq_true, if_false, hcond, if_true]
    simp only [to_decimal, hclean, hmt, Option.map_some']
    rw [List.take_append_drop, hBlen]
    rw [hs2def, digitsToNat_replicate_zero, hsdef, digitsToNat_natDigits]

theorem matchFullToken_exp_le (l : List Char) (t : List Char × List Char)
    (h : matchFullToken l = some t) : t.2.length ≤ 2 := by
  simp only [matchFullToken] at h
  split at h
  · exact Option.noConfusion h
  · split at h
    · injection h with h2
      rw [← h2]
      simp
    · split at h
      · injection h with h2
        rw [← h2]
        rename_i hcond
        simp only [Bool.and_eq_true, decide_eq_true_eq] at hcond
        exact hcond.1.2
      · exact Option.noConfusion h
    · exact Option.noConfusion h

theorem scanToken_exp_le :
    ∀ (l : List Char) (t : List Char × List Char),
      scanToken l = some t → t.2.length ≤ 2 := by
  intro l
  induction l with
  | nil =>
    intro t h
    exact Option.noConfusion h
  | cons c rest ih =>
    intro t h
    rw [scanToken] at h
    split at h
    · split at h
      · rename_i r2 heq
        by_cases hfs : ((r2.takeWhile Char.isDigit).take 2).isEmpty = true
        · simp only [hfs, if_true] at h
          injection h with h2
          rw [← h2]
          simp
        · have hfs2 : ((r2.takeWhile Char.isDigit).take 2).isEmpty = false := by
            revert hfs
            cases (r2.takeWhile Char.isDigit).take 2 <;> simp
          simp only [hfs2, Bool.false_eq_true, if_false] at h
          injection h with h2
          rw [← h2]
          show ((r2.takeWhile Char.isDigit).take 2).length ≤ 2
          rw [List.length_take]
          omega
      · injection h with h2
        rw [← h2]
        simp
    · exact ih t h

theorem to_decimal_exp_le (cs : List Char) (d : Dec) (h : to_decimal cs = some d) :
    d.exp ≤ 2 := by
  rw [to_decimal] at h
  rw [Option.map_eq_some'] at h
  obtain ⟨t, ht, hd⟩ := h
  rw [← hd]
  show t.2.length ≤ 2
  revert ht
  cases hmt : matchFullToken (to_decimal_cleaned cs) with
  | some t2 =>
    intro ht
    injection ht with ht2
    rw [← ht2]
    exact matchFullToken_exp_le _ _ hmt
  | none =>
    intro ht
    exact scanToken_exp_le _ _ ht

/-- C9: the shared decimal normalizer is idempotent — whenever `to_decimal`
succeeds on a string, running it again on the printed form (`str`) of the
resulting `Decimal` returns the very same `Decimal`, so in particular
`to_decimal(str(to_decimal(x))) == to_decimal(x)` (base.py lines 28-41). -/
theorem C9_to_decimal_idempotent :
    ∀ (cs : List Char) (d : Dec), to_decimal cs = some d →
      to_decimal (decStr d) = some d := by
  intro cs d h
  have he := to_decimal_exp_le cs d h
  obtain ⟨n, e⟩ := d
  exact to_decimal_decStr n e he

/-- Witness for C9: normalizing "1 790,50 ₽" gives Decimal("1790.50"), and
normalizing its printed form gives the same Decimal. -/
theorem C9_to_decimal_idempotent_witness :
    to_decimal (decStr ⟨179050, 2⟩) = some ⟨179050, 2⟩ :=
  C9_to_decimal_idempotent ("1 790,50 ₽".data) ⟨179050, 2⟩ (by decide)

end PriceMonitor
